import Mathlib

/-!
Verification of the deep-safe-drop adapter of the lexpr value representation.

The development embeds the `Value` variant set and the child-slot operations of
`src/lexpr/src/drop.rs` as pure Lean functions.  Rust's `&mut Value` operations
are modelled by state passing: a Rust function mutating `self` and returning `r`
becomes a Lean function `Value → r × Value` returning the result together with
the post-state.  The generic destruction driver lives in the external
`deep_safe_drop` crate whose source is not part of this repository; it is
modelled from the specification's state-machine description.
-/

namespace LexprDrop

/-- The `Value` tagged union of the lexpr representation, as used by
`src/lexpr/src/drop.rs`: nine leaf variants (Nil, Null, Bool, Number, Char,
String, Symbol, Keyword, Bytes) and two branch variants (Cons with a car and a
cdr slot, Vector with a list of element slots).  Scalar payloads are modelled
by simple carriers since no operation of `drop.rs` inspects them. -/
inductive Value : Type where
  | Nil : Value
  | Null : Value
  | Bool (b : Bool) : Value
  | Number (n : Int) : Value
  | Char (c : Char) : Value
  | String (s : String) : Value
  | Symbol (s : String) : Value
  | Keyword (s : String) : Value
  | Bytes (bs : List Nat) : Value
  | Cons (car cdr : Value) : Value
  | Vector (elems : List Value) : Value

/-- Rust `is_branch_node` of `drop.rs`: `Cons` and `Vector` are branch nodes,
every other variant is a leaf.  The match is exhaustive with no wildcard arm,
mirroring the source. -/
def is_branch_node : Value → Bool
  | .Cons _ _ | .Vector _ => true
  | .Nil | .Null | .Bool _ | .Number _ | .Char _ | .String _ | .Symbol _
  | .Keyword _ | .Bytes _ => false

/-- Rust `child_at_index_0` of `drop.rs`, read component: the value currently
in slot 0 (`car` of a Cons, element 0 of a Vector), or `none` when there is no
slot 0. -/
def child_at_index_0 : Value → Option Value
  | .Cons car _ => some car
  | .Vector elems => elems.head?
  | .Nil | .Null | .Bool _ | .Number _ | .Char _ | .String _ | .Symbol _
  | .Keyword _ | .Bytes _ => none

/-- Write component of Rust `child_at_index_0`: writing through the returned
`&mut Value` replaces the slot-0 content.  When the value has no slot 0 the
value is returned unchanged (the Rust reference does not exist then). -/
def write_child_at_index_0 (v newChild : Value) : Value :=
  match v with
  | .Cons _ cdr => .Cons newChild cdr
  | .Vector elems =>
    match elems with
    | [] => .Vector []
    | _ :: rest => .Vector (newChild :: rest)
  | other => other

/-- Rust `replace_branch_node` of `drop.rs` on a slot modelled by state
passing: the slot content becomes `src`; the previous content is returned
iff it was a branch node (a leaf previous content is dropped by the caller). -/
def replace_branch_node (dest src : Value) : Option Value × Value :=
  (if is_branch_node dest then some dest else none, src)

/-- Rust `take_branch_node` of `drop.rs`: `replace_branch_node` with the
constant `LEAF = Value::Nil` placeholder as the new content. -/
def take_branch_node (v : Value) : Option Value × Value :=
  replace_branch_node v Value.Nil

/-- Rust `SetParent` result enum of the `deep_safe_drop` crate as used by
`drop.rs`. -/
inductive SetParent : Type where
  | No (returned_parent : Value) : SetParent
  | Yes : SetParent
  | YesReplacedChild (child0 : Value) : SetParent

/-- Rust `Value::set_parent_at_index_0` of `drop.rs`: store `parent` into
slot 0.  Returns `No` with the parent handed back when there is no slot 0,
`Yes` when slot 0 held a leaf (discarded), `YesReplacedChild` with the
previous slot-0 branch value otherwise.  The post-state is the second
component. -/
def set_parent_at_index_0 (v parent : Value) : SetParent × Value :=
  match child_at_index_0 v with
  | some child0 =>
    match replace_branch_node child0 parent with
    | (some prev, newSlot) => (.YesReplacedChild prev, write_child_at_index_0 v newSlot)
    | (none, newSlot) => (.Yes, write_child_at_index_0 v newSlot)
  | none => (.No parent, v)

/-- Rust `Value::take_child_at_index_0` of `drop.rs`:
`child_at_index_0(self).and_then(take_branch_node)` — when slot 0 exists its
content is replaced by the `Nil` leaf placeholder and the previous content is
returned iff it was a branch. -/
def take_child_at_index_0 (v : Value) : Option Value × Value :=
  match child_at_index_0 v with
  | some child0 =>
    match take_branch_node child0 with
    | (r, newSlot) => (r, write_child_at_index_0 v newSlot)
  | none => (none, v)

/-- Rust `Vec::pop` on the element list of a `Vector`: removes and returns the
last element, or `none` on the empty list. -/
def vec_pop (l : List Value) : Option Value × List Value :=
  match l.getLast? with
  | some x => (some x, l.dropLast)
  | none => (none, l)

theorem vec_pop_length_lt {l : List Value} {x : Value} {rest : List Value}
    (h : vec_pop l = (some x, rest)) : rest.length < l.length := by
  unfold vec_pop at h
  cases hl : l.getLast? with
  | none => rw [hl] at h; cases h
  | some y =>
    rw [hl] at h
    cases h
    have hne : l ≠ [] := by
      intro he
      rw [he] at hl
      simp at hl
    have hpos : 0 < l.length := List.length_pos.mpr hne
    simp [List.length_dropLast]
    omega

/-- Rust `take_next_child_at_pos_index`, `Vector` arm of `drop.rs`: while the
vector has at least two elements, pop the last; a branch element is returned,
a leaf element is discarded and the loop continues; with fewer than two
elements the result is `none`.  The `(none, rest)` pop outcome under the
length guard is the Rust `unreachable!()` arm; the theorem for claim C8 shows
it is never taken (`vec_take_next_panics` mirrors the control flow and
reports whether that arm was reached). -/
def vec_take_next (l : List Value) : Option Value × List Value :=
  if 2 ≤ l.length then
    match hp : vec_pop l with
    | (some next, rest) =>
      if is_branch_node next then (some next, rest) else vec_take_next rest
    | (none, _) => (none, [])
  else (none, l)
termination_by l.length
decreasing_by exact vec_pop_length_lt hp

/-- Mirror of the control flow of the `Vector` arm of
`take_next_child_at_pos_index`, reporting whether the Rust `unreachable!()`
arm is reached. -/
def vec_take_next_panics (l : List Value) : Bool :=
  if 2 ≤ l.length then
    match hp : vec_pop l with
    | (some next, rest) =>
      if is_branch_node next then false else vec_take_next_panics rest
    | (none, _) => true
  else false
termination_by l.length
decreasing_by exact vec_pop_length_lt hp

/-- Rust `Value::take_next_child_at_pos_index` of `drop.rs`: for a `Cons`,
`take_branch_node` on the cdr slot; for a `Vector`, the pop loop
(`vec_take_next`); every leaf variant returns `none` unchanged. -/
def take_next_child_at_pos_index (v : Value) : Option Value × Value :=
  match v with
  | .Cons car cdr =>
    match take_branch_node cdr with
    | (r, newCdr) => (r, .Cons car newCdr)
  | .Vector elems =>
    match vec_take_next elems with
    | (r, rest) => (r, .Vector rest)
  | .Nil | .Null | .Bool _ | .Number _ | .Char _ | .String _ | .Symbol _
  | .Keyword _ | .Bytes _ => (none, v)

mutual

/-- Number of nodes of a value's ownership tree (every variant is one node;
branch variants add their children's nodes). -/
def size : Value → Nat
  | .Cons car cdr => 1 + size car + size cdr
  | .Vector elems => 1 + sizeList elems
  | .Nil | .Null | .Bool _ | .Number _ | .Char _ | .String _ | .Symbol _
  | .Keyword _ | .Bytes _ => 1

/-- Sum of `size` over a list of values. -/
def sizeList : List Value → Nat
  | [] => 0
  | v :: vs => size v + sizeList vs

end

/-- Number of addressable child slots: 2 for a Cons, the length for a Vector,
0 for every leaf variant (spec §4.2 `slotCount`). -/
def slotCount : Value → Nat
  | .Cons _ _ => 2
  | .Vector elems => elems.length
  | .Nil | .Null | .Bool _ | .Number _ | .Char _ | .String _ | .Symbol _
  | .Keyword _ | .Bytes _ => 0

/-- The value held by child slot `i`, when such a slot exists. -/
def slotAt : Value → Nat → Option Value
  | .Cons car _, 0 => some car
  | .Cons _ cdr, 1 => some cdr
  | .Cons _ _, _ + 2 => none
  | .Vector elems, i => elems.get? i
  | .Nil, _ | .Null, _ | .Bool _, _ | .Number _, _ | .Char _, _ | .String _, _
  | .Symbol _, _ | .Keyword _, _ | .Bytes _, _ => none

theorem write_child_keeps_slot_0 {v c : Value} (h : child_at_index_0 v = some c)
    (x : Value) : child_at_index_0 (write_child_at_index_0 v x) = some x := by
  cases v <;> simp [child_at_index_0] at h <;> simp [write_child_at_index_0, child_at_index_0]
  case Vector elems =>
    cases elems with
    | nil => simp at h
    | cons y ys => simp [write_child_at_index_0, child_at_index_0]

/-- Claim C6: `is_branch_node` is a pure, total function over the whole
variant set: `true` exactly on the two-slot cell (Cons) and the sequence
(Vector), `false` on each of the nine leaf variants, with no other outcome. -/
theorem C6_is_branch_classification :
    (∀ a d, is_branch_node (.Cons a d) = true) ∧
    (∀ l, is_branch_node (.Vector l) = true) ∧
    is_branch_node .Nil = false ∧
    is_branch_node .Null = false ∧
    (∀ b, is_branch_node (.Bool b) = false) ∧
    (∀ n, is_branch_node (.Number n) = false) ∧
    (∀ c, is_branch_node (.Char c) = false) ∧
    (∀ s, is_branch_node (.String s) = false) ∧
    (∀ s, is_branch_node (.Symbol s) = false) ∧
    (∀ s, is_branch_node (.Keyword s) = false) ∧
    (∀ bs, is_branch_node (.Bytes bs) = false) ∧
    (∀ v, is_branch_node v = true ∨ is_branch_node v = false) := by
  refine ⟨?_, ?_, rfl, rfl, ?_, ?_, ?_, ?_, ?_, ?_, ?_, ?_⟩ <;>
    first
      | intro _; rfl
      | intro _ _; rfl
      | intro v; cases v <;> simp [is_branch_node]

/-- Claim C10: on a value with no slot 0 (any leaf variant, or the
zero-length Vector), `set_parent_at_index_0` reports `No` carrying the given
parent back intact, and leaves the receiver value unmodified. -/
theorem C10_no_slot_0_returns_parent_intact (v a : Value)
    (h : child_at_index_0 v = none) :
    set_parent_at_index_0 v a = (.No a, v) := by
  unfold set_parent_at_index_0
  rw [h]

theorem C10_witness :
    child_at_index_0 (Value.Vector []) = none ∧
    set_parent_at_index_0 (Value.Vector []) (Value.Bool true) =
      (.No (Value.Bool true), Value.Vector []) :=
  ⟨rfl, C10_no_slot_0_returns_parent_intact (Value.Vector []) (Value.Bool true) rfl⟩

/-- Claim C2: `set_parent_at_index_0 v a` returns `No` (with the parent
handed back) exactly when `v` has no slot 0; otherwise it stores `a` into
slot 0 and returns `Yes` exactly when slot 0 previously held a leaf, or
`YesReplacedChild c` exactly when slot 0 previously held the branch value
`c`, handing that displaced value back. -/
theorem C2_set_parent_characterization (v a : Value) :
    ((set_parent_at_index_0 v a).1 = .No a ↔ child_at_index_0 v = none) ∧
    ((set_parent_at_index_0 v a).1 = .Yes ↔
      ∃ c, child_at_index_0 v = some c ∧ is_branch_node c = false) ∧
    (∀ c, (set_parent_at_index_0 v a).1 = .YesReplacedChild c ↔
      child_at_index_0 v = some c ∧ is_branch_node c = true) ∧
    (set_parent_at_index_0 v a).2 =
      (match child_at_index_0 v with
        | some _ => write_child_at_index_0 v a
        | none => v) := by
  cases hc : child_at_index_0 v with
  | none =>
    simp [set_parent_at_index_0, hc]
  | some c =>
    cases hb : is_branch_node c with
    | true =>
      simp [set_parent_at_index_0, replace_branch_node, hc, hb]
    | false =>
      simp [set_parent_at_index_0, replace_branch_node, hc, hb]

theorem C2_witness :
    (set_parent_at_index_0 (Value.Cons (Value.Bool false) Value.Null)
        (Value.Number 7)).1 = .Yes ∧
    (set_parent_at_index_0 (Value.Cons (Value.Bool false) Value.Null)
        (Value.Number 7)).2 = Value.Cons (Value.Number 7) Value.Null := by
  have h := C2_set_parent_characterization
    (Value.Cons (Value.Bool false) Value.Null) (Value.Number 7)
  refine ⟨h.2.1.mpr ⟨Value.Bool false, rfl, rfl⟩, ?_⟩
  rw [h.2.2.2]
  rfl

/-- Claim C5: `take_child_at_index_0` returns `some` of the detached slot-0
value exactly when slot 0 exists and holds a branch value, in that case
leaving the `Nil` leaf placeholder in slot 0; it returns `none` both when
slot 0 holds a leaf and when the value has no slot 0. -/
theorem C5_take_leading_child (v : Value) :
    (∀ c, (take_child_at_index_0 v).1 = some c ↔
      child_at_index_0 v = some c ∧ is_branch_node c = true) ∧
    (∀ c, (take_child_at_index_0 v).1 = some c →
      child_at_index_0 (take_child_at_index_0 v).2 = some Value.Nil) ∧
    ((take_child_at_index_0 v).1 = none ↔
      (child_at_index_0 v = none ∨
        ∃ c, child_at_index_0 v = some c ∧ is_branch_node c = false)) := by
  cases hc : child_at_index_0 v with
  | none =>
    simp [take_child_at_index_0, hc]
  | some c =>
    have hpost : (take_child_at_index_0 v).2 = write_child_at_index_0 v Value.Nil := by
      simp [take_child_at_index_0, hc, take_branch_node, replace_branch_node]
    cases hb : is_branch_node c with
    | true =>
      refine ⟨?_, ?_, ?_⟩
      · intro x
        simp [take_child_at_index_0, hc, take_branch_node, replace_branch_node, hb]
        rintro rfl
        exact hb
      · intro x _
        rw [hpost]
        exact write_child_keeps_slot_0 hc Value.Nil
      · simp [take_child_at_index_0, hc, take_branch_node, replace_branch_node, hb]
    | false =>
      refine ⟨?_, ?_, ?_⟩
      · intro x
        simp [take_child_at_index_0, hc, take_branch_node, replace_branch_node, hb]
        rintro rfl
        simp [hb]
      · intro x hx
        rw [hpost]
        exact write_child_keeps_slot_0 hc Value.Nil
      · simp [take_child_at_index_0, hc, take_branch_node, replace_branch_node, hb]

theorem C5_witness :
    (take_child_at_index_0 (Value.Cons (Value.Cons Value.Nil Value.Nil) Value.Null)).1 =
      some (Value.Cons Value.Nil Value.Nil) ∧
    child_at_index_0
      (take_child_at_index_0 (Value.Cons (Value.Cons Value.Nil Value.Nil) Value.Null)).2 =
      some Value.Nil := by
  have h := C5_take_leading_child (Value.Cons (Value.Cons Value.Nil Value.Nil) Value.Null)
  have h1 := (h.1 (Value.Cons Value.Nil Value.Nil)).mpr ⟨rfl, rfl⟩
  exact ⟨h1, h.2.1 (Value.Cons Value.Nil Value.Nil) h1⟩

/-- Claim C9: after any call to `take_child_at_index_0`, slot 0 (when it
exists) holds the `Nil` leaf placeholder — even when the call returned `none`
because slot 0 held a leaf — and consequently an immediately repeated call
returns `none`. -/
theorem C9_leading_slot_vacated (v : Value) :
    (child_at_index_0 v ≠ none →
      child_at_index_0 (take_child_at_index_0 v).2 = some Value.Nil) ∧
    (take_child_at_index_0 (take_child_at_index_0 v).2).1 = none := by
  cases hc : child_at_index_0 v with
  | none =>
    have hpost : (take_child_at_index_0 v).2 = v := by
      simp [take_child_at_index_0, hc]
    refine ⟨fun h => absurd rfl h, ?_⟩
    rw [hpost]
    simp [take_child_at_index_0, hc]
  | some c =>
    have hpost : (take_child_at_index_0 v).2 = write_child_at_index_0 v Value.Nil := by
      simp [take_child_at_index_0, hc, take_branch_node, replace_branch_node]
    have hslot : child_at_index_0 (take_child_at_index_0 v).2 = some Value.Nil := by
      rw [hpost]; exact write_child_keeps_slot_0 hc Value.Nil
    refine ⟨fun _ => hslot, ?_⟩
    generalize hX : (take_child_at_index_0 v).2 = X at hslot
    simp [take_child_at_index_0, hslot, take_branch_node, replace_branch_node, is_branch_node]

theorem C9_witness :
    child_at_index_0 (Value.Cons Value.Null Value.Nil) ≠ none ∧
    child_at_index_0 (take_child_at_index_0 (Value.Cons Value.Null Value.Nil)).2 =
      some Value.Nil := by
  refine ⟨by simp [child_at_index_0], ?_⟩
  exact (C9_leading_slot_vacated (Value.Cons Value.Null Value.Nil)).1 (by simp [child_at_index_0])

/-- Counterexample to claim C3 as stated: on `Cons Nil (Bool true)` the
tail slot holds a leaf, `take_next_child_at_pos_index` returns `none`, but
the tail leaf is NOT left in place — the post-state tail slot holds the `Nil`
placeholder, not `Bool true`. -/
theorem C3_counterexample :
    (take_next_child_at_pos_index (Value.Cons Value.Nil (Value.Bool true))).1 = none ∧
    (take_next_child_at_pos_index (Value.Cons Value.Nil (Value.Bool true))).2 =
      Value.Cons Value.Nil Value.Nil ∧
    Value.Cons Value.Nil Value.Nil ≠ Value.Cons Value.Nil (Value.Bool true) := by
  refine ⟨rfl, rfl, ?_⟩
  intro h
  injection h with h1 h2
  exact Value.noConfusion h2

/-- Claim C3, amended: on a two-slot cell the tail (cdr) slot is the only
candidate; the tail value is returned at most once, namely when it is a
branch; otherwise `none` is returned.  In either case the tail slot is
overwritten with the `Nil` leaf placeholder (a tail leaf is discarded, not
left in place), so an immediately repeated call returns `none`. -/
theorem C3_cons_take_next (car cdr : Value) :
    (is_branch_node cdr = true →
      take_next_child_at_pos_index (.Cons car cdr) = (some cdr, .Cons car .Nil)) ∧
    (is_branch_node cdr = false →
      take_next_child_at_pos_index (.Cons car cdr) = (none, .Cons car .Nil)) ∧
    (take_next_child_at_pos_index
      (take_next_child_at_pos_index (.Cons car cdr)).2).1 = none := by
  have hpost : (take_next_child_at_pos_index (Value.Cons car cdr)).2 =
      Value.Cons car Value.Nil := by
    cases hb : is_branch_node cdr <;>
      simp [take_next_child_at_pos_index, take_branch_node, replace_branch_node, hb]
  refine ⟨?_, ?_, ?_⟩
  · intro hb
    simp [take_next_child_at_pos_index, take_branch_node, replace_branch_node, hb]
  · intro hb
    simp [take_next_child_at_pos_index, take_branch_node, replace_branch_node, hb]
  · rw [hpost]
    simp [take_next_child_at_pos_index, take_branch_node, replace_branch_node, is_branch_node]

theorem C3_witness :
    is_branch_node (Value.Vector []) = true ∧
    take_next_child_at_pos_index (Value.Cons Value.Null (Value.Vector [])) =
      (some (Value.Vector []), Value.Cons Value.Null Value.Nil) :=
  ⟨rfl, (C3_cons_take_next Value.Null (Value.Vector [])).1 rfl⟩

theorem vec_pop_some_eq {l : List Value} {x : Value} {rest : List Value}
    (h : vec_pop l = (some x, rest)) : l = rest ++ [x] := by
  unfold vec_pop at h
  cases hl : l.getLast? with
  | none => rw [hl] at h; cases h
  | some y =>
    rw [hl] at h
    injection h with h1 h2
    injection h1 with h1
    subst h1
    subst h2
    have hne : l ≠ [] := by intro he; rw [he] at hl; simp at hl
    have hy := List.getLast?_eq_getLast l hne
    rw [hl] at hy
    injection hy with hy
    rw [hy]
    exact (List.dropLast_append_getLast hne).symm

theorem vec_pop_isSome_of_two {l : List Value} (h : 2 ≤ l.length) :
    (vec_pop l).1.isSome = true := by
  have hne : l ≠ [] := by
    intro he; rw [he] at h; simp at h
  unfold vec_pop
  cases hl : l.getLast? with
  | none =>
    rw [List.getLast?_eq_getLast l hne] at hl
    cases hl
  | some y => rfl

/-- Claim C8: the `unreachable!()` arm inside the `Vector` case of
`take_next_child_at_pos_index` is never reached — whenever the vector holds
at least two elements, popping yields an element. -/
theorem C8_no_unreachable_pop (l : List Value) :
    vec_take_next_panics l = false ∧
    (2 ≤ l.length → (vec_pop l).1.isSome = true) := by
  refine ⟨?_, fun h => vec_pop_isSome_of_two h⟩
  induction l using vec_take_next_panics.induct with
  | case1 l hlen nx rest hp hb =>
    unfold vec_take_next_panics
    rw [if_pos hlen]
    split
    · rename_i a b heq
      rw [hp] at heq
      injection heq with e1 e2
      injection e1 with e1
      subst e1
      subst e2
      simp [hb]
    · rename_i b heq
      rw [hp] at heq
      injection heq with e1 e2
      exact Option.noConfusion e1
  | case2 l hlen nx rest hp hb ih =>
    unfold vec_take_next_panics
    rw [if_pos hlen]
    split
    · rename_i a b heq
      rw [hp] at heq
      injection heq with e1 e2
      injection e1 with e1
      subst e1
      subst e2
      simp [hb, ih]
    · rename_i b heq
      rw [hp] at heq
      injection heq with e1 e2
      exact Option.noConfusion e1
  | case3 l hlen snd hp =>
    exfalso
    have hs := vec_pop_isSome_of_two (l := l) hlen
    rw [hp] at hs
    simp at hs
  | case4 l hlen =>
    unfold vec_take_next_panics
    rw [if_neg hlen]

theorem C8_witness :
    2 ≤ ([Value.Nil, Value.Null] : List Value).length ∧
    (vec_pop [Value.Nil, Value.Null]).1.isSome = true :=
  ⟨by simp, (C8_no_unreachable_pop [Value.Nil, Value.Null]).2 (by simp)⟩

theorem vec_take_next_some (l : List Value) :
    ∀ b l', vec_take_next l = (some b, l') →
      is_branch_node b = true ∧ 1 ≤ l'.length ∧
      ∃ trail, l = l' ++ b :: trail ∧ ∀ x ∈ trail, is_branch_node x = false := by
  induction l using vec_take_next.induct with
  | case1 l hlen nx rest hp hb =>
    intro b l' h
    unfold vec_take_next at h
    rw [if_pos hlen] at h
    split at h
    · rename_i a bb heq
      rw [hp] at heq
      injection heq with e1 e2
      injection e1 with e1
      subst e1
      subst e2
      rw [hb] at h
      simp at h
      obtain ⟨rfl, rfl⟩ := h
      have hl := vec_pop_some_eq hp
      have hlen' : 1 ≤ rest.length := by
        have hh : l.length = rest.length + 1 := by rw [hl]; simp
        omega
      exact ⟨hb, hlen', [], by simpa using hl, by simp⟩
    · rename_i bb heq
      rw [hp] at heq
      injection heq with e1 e2
      exact Option.noConfusion e1
  | case2 l hlen nx rest hp hb ih =>
    intro b l' h
    unfold vec_take_next at h
    rw [if_pos hlen] at h
    split at h
    · rename_i a bb heq
      rw [hp] at heq
      injection heq with e1 e2
      injection e1 with e1
      subst e1
      subst e2
      rw [if_neg hb] at h
      simp only [Bool.not_eq_true] at hb
      obtain ⟨hbb, hlen', trail, htr, hleaf⟩ := ih b l' h
      have hl := vec_pop_some_eq hp
      refine ⟨hbb, hlen', trail ++ [nx], ?_, ?_⟩
      · rw [hl, htr]
        simp
      · intro x hx
        simp at hx
        cases hx with
        | inl hx => exact hleaf x hx
        | inr hx => rw [hx]; exact hb
    · rename_i bb heq
      rw [hp] at heq
      injection heq with e1 e2
      exact Option.noConfusion e1
  | case3 l hlen snd hp =>
    intro b l' h
    exfalso
    have hs := vec_pop_isSome_of_two (l := l) hlen
    rw [hp] at hs
    simp at hs
  | case4 l hlen =>
    intro b l' h
    unfold vec_take_next at h
    rw [if_neg hlen] at h
    injection h with e1 e2
    exact Option.noConfusion e1

theorem vec_take_next_none (l : List Value) :
    ∀ l', vec_take_next l = (none, l') →
      l' = l.take 1 ∧ ∀ x ∈ l.drop 1, is_branch_node x = false := by
  induction l using vec_take_next.induct with
  | case1 l hlen nx rest hp hb =>
    intro l' h
    unfold vec_take_next at h
    rw [if_pos hlen] at h
    split at h
    · rename_i a bb heq
      rw [hp] at heq
      injection heq with e1 e2
      injection e1 with e1
      subst e1
      subst e2
      rw [hb] at h
      simp at h
    · rename_i bb heq
      rw [hp] at heq
      injection heq with e1 e2
      exact Option.noConfusion e1
  | case2 l hlen nx rest hp hb ih =>
    intro l' h
    unfold vec_take_next at h
    rw [if_pos hlen] at h
    split at h
    · rename_i a bb heq
      rw [hp] at heq
      injection heq with e1 e2
      injection e1 with e1
      subst e1
      subst e2
      rw [if_neg hb] at h
      simp only [Bool.not_eq_true] at hb
      obtain ⟨h1, h2⟩ := ih l' h
      have hl := vec_pop_some_eq hp
      have hrlen : 1 ≤ rest.length := by
        have hh : l.length = rest.length + 1 := by rw [hl]; simp
        omega
      constructor
      · rw [h1, hl, List.take_append_eq_append_take]
        have hz : 1 - rest.length = 0 := by omega
        rw [hz]
        simp
      · intro x hx
        rw [hl, List.drop_append_eq_append_drop] at hx
        have hz : 1 - rest.length = 0 := by omega
        rw [hz] at hx
        simp at hx
        simp only [List.drop_one] at h2
        cases hx with
        | inl hx => exact h2 x hx
        | inr hx => rw [hx]; exact hb
    · rename_i bb heq
      rw [hp] at heq
      injection heq with e1 e2
      exact Option.noConfusion e1
  | case3 l hlen snd hp =>
    intro l' h
    exfalso
    have hs := vec_pop_isSome_of_two (l := l) hlen
    rw [hp] at hs
    simp at hs
  | case4 l hlen =>
    intro l' h
    unfold vec_take_next at h
    rw [if_neg hlen] at h
    injection h with e1 e2
    subst e2
    have hle : l.length ≤ 1 := by omega
    constructor
    · rw [List.take_of_length_le hle]
    · intro x hx
      rw [List.drop_eq_nil_of_le hle] at hx
      simp at hx

theorem vec_take_next_head_eq (l : List Value) :
    (vec_take_next l).2.head? = l.head? := by
  induction l using vec_take_next.induct with
  | case1 l hlen nx rest hp hb =>
    unfold vec_take_next
    rw [if_pos hlen]
    split
    · rename_i a bb heq
      rw [hp] at heq
      injection heq with e1 e2
      injection e1 with e1
      subst e1
      subst e2
      rw [if_pos hb]
      have hl := vec_pop_some_eq hp
      have hrlen : 1 ≤ rest.length := by
        have : l.length = rest.length + 1 := by rw [hl]; simp
        omega
      cases rest with
      | nil => simp at hrlen
      | cons r rs => rw [hl]; simp
    · rename_i bb heq
      rw [hp] at heq
      injection heq with e1 e2
      exact Option.noConfusion e1
  | case2 l hlen nx rest hp hb ih =>
    unfold vec_take_next
    rw [if_pos hlen]
    split
    · rename_i a bb heq
      rw [hp] at heq
      injection heq with e1 e2
      injection e1 with e1
      subst e1
      subst e2
      rw [if_neg hb]
      rw [ih]
      have hl := vec_pop_some_eq hp
      have hrlen : 1 ≤ rest.length := by
        have : l.length = rest.length + 1 := by rw [hl]; simp
        omega
      cases rest with
      | nil => simp at hrlen
      | cons r rs => rw [hl]; simp
    · rename_i bb heq
      rw [hp] at heq
      injection heq with e1 e2
      exact Option.noConfusion e1
  | case3 l hlen snd hp =>
    exfalso
    have hs := vec_pop_isSome_of_two (l := l) hlen
    rw [hp] at hs
    simp at hs
  | case4 l hlen =>
    unfold vec_take_next
    rw [if_neg hlen]

/-- Claim C4: on a sequence (Vector), `take_next_child_at_pos_index`
repeatedly removes the last element while it is a leaf and at least two
elements remain, discarding each removed leaf; it stops at and returns the
first branch element found (scanning from the end); it returns `none` once
fewer than two elements remain; and the element at index 0 is never removed
(the head of the element list is preserved). -/
theorem C4_vector_take_next (l : List Value) :
    (∀ b l', vec_take_next l = (some b, l') →
      is_branch_node b = true ∧ 1 ≤ l'.length ∧
      ∃ trail, l = l' ++ b :: trail ∧ ∀ x ∈ trail, is_branch_node x = false) ∧
    (∀ l', vec_take_next l = (none, l') →
      l' = l.take 1 ∧ ∀ x ∈ l.drop 1, is_branch_node x = false) ∧
    (vec_take_next l).2.head? = l.head? ∧
    take_next_child_at_pos_index (.Vector l) =
      ((vec_take_next l).1, .Vector (vec_take_next l).2) := by
  refine ⟨vec_take_next_some l, vec_take_next_none l, vec_take_next_head_eq l, ?_⟩
  cases h : vec_take_next l with
  | mk r rest => simp [take_next_child_at_pos_index, h]

theorem C4_witness :
    vec_take_next [Value.Null, Value.Bool false, Value.Cons Value.Nil Value.Nil,
        Value.Number 3] =
      (some (Value.Cons Value.Nil Value.Nil), [Value.Null, Value.Bool false]) ∧
    is_branch_node (Value.Cons Value.Nil Value.Nil) = true ∧
    1 ≤ ([Value.Null, Value.Bool false] : List Value).length ∧
    ∃ trail, [Value.Null, Value.Bool false, Value.Cons Value.Nil Value.Nil,
        Value.Number 3] =
      [Value.Null, Value.Bool false] ++ Value.Cons Value.Nil Value.Nil :: trail ∧
      ∀ x ∈ trail, is_branch_node x = false := by
  have he : vec_take_next [Value.Null, Value.Bool false,
      Value.Cons Value.Nil Value.Nil, Value.Number 3] =
      (some (Value.Cons Value.Nil Value.Nil), [Value.Null, Value.Bool false]) := by
    unfold vec_take_next
    unfold vec_take_next
    rfl
  have h := (C4_vector_take_next [Value.Null, Value.Bool false,
      Value.Cons Value.Nil Value.Nil, Value.Number 3]).1
    (Value.Cons Value.Nil Value.Nil) [Value.Null, Value.Bool false] he
  exact ⟨he, h.1, h.2.1, h.2.2⟩

theorem slot_totality (v : Value) (i : Nat) :
    (slotAt v i).isSome = true ↔ i < slotCount v := by
  cases v with
  | Cons car cdr =>
    match i with
    | 0 => simp [slotAt, slotCount]
    | 1 => simp [slotAt, slotCount]
    | n + 2 => simp [slotAt, slotCount]
  | Vector elems =>
    simp only [slotAt, slotCount, List.get?_eq_getElem?, Option.isSome_iff_ne_none, ne_eq,
      List.getElem?_eq_none_iff]
    omega
  | Nil => simp [slotAt, slotCount]
  | Null => simp [slotAt, slotCount]
  | Bool b => simp [slotAt, slotCount]
  | Number n => simp [slotAt, slotCount]
  | Char c => simp [slotAt, slotCount]
  | String s => simp [slotAt, slotCount]
  | Symbol s => simp [slotAt, slotCount]
  | Keyword s => simp [slotAt, slotCount]
  | Bytes bs => simp [slotAt, slotCount]

/-- Claim C7: each child-slot operation preserves well-formedness — after
`set_parent_at_index_0`, `take_child_at_index_0` or
`take_next_child_at_pos_index`, every addressable slot of the post-state
still holds a value (`slotAt` is `some` exactly below `slotCount`), and
detachment substitutes the `Nil` leaf placeholder (or the stored ancestor)
into the vacated slot. -/
theorem C7_slot_operations_keep_well_formed (v a : Value) :
    (∀ i, (slotAt (set_parent_at_index_0 v a).2 i).isSome = true ↔
      i < slotCount (set_parent_at_index_0 v a).2) ∧
    (∀ i, (slotAt (take_child_at_index_0 v).2 i).isSome = true ↔
      i < slotCount (take_child_at_index_0 v).2) ∧
    (∀ i, (slotAt (take_next_child_at_pos_index v).2 i).isSome = true ↔
      i < slotCount (take_next_child_at_pos_index v).2) ∧
    (child_at_index_0 v ≠ none →
      child_at_index_0 (take_child_at_index_0 v).2 = some Value.Nil) ∧
    (child_at_index_0 v ≠ none →
      child_at_index_0 (set_parent_at_index_0 v a).2 = some a) ∧
    (∀ car cdr, v = .Cons car cdr →
      (take_next_child_at_pos_index v).2 = .Cons car .Nil) := by
  refine ⟨fun i => slot_totality _ i, fun i => slot_totality _ i,
    fun i => slot_totality _ i, ?_, ?_, ?_⟩
  · intro h
    cases hc : child_at_index_0 v with
    | none => exact absurd rfl (hc ▸ h)
    | some c =>
      have hpost : (take_child_at_index_0 v).2 = write_child_at_index_0 v Value.Nil := by
        simp [take_child_at_index_0, hc, take_branch_node, replace_branch_node]
      rw [hpost]
      exact write_child_keeps_slot_0 hc Value.Nil
  · intro h
    cases hc : child_at_index_0 v with
    | none => exact absurd rfl (hc ▸ h)
    | some c =>
      have hpost : (set_parent_at_index_0 v a).2 = write_child_at_index_0 v a := by
        cases hb : is_branch_node c <;>
          simp [set_parent_at_index_0, hc, replace_branch_node, hb]
      rw [hpost]
      exact write_child_keeps_slot_0 hc a
  · intro car cdr hv
    subst hv
    cases hb : is_branch_node cdr <;>
      simp [take_next_child_at_pos_index, take_branch_node, replace_branch_node, hb]

theorem C7_witness :
    child_at_index_0 (Value.Cons (Value.Number 1) (Value.Number 2)) ≠ none ∧
    child_at_index_0
      (set_parent_at_index_0 (Value.Cons (Value.Number 1) (Value.Number 2))
        (Value.Symbol "p")).2 = some (Value.Symbol "p") := by
  refine ⟨by simp [child_at_index_0], ?_⟩
  exact (C7_slot_operations_keep_well_formed (Value.Cons (Value.Number 1) (Value.Number 2))
    (Value.Symbol "p")).2.2.2.2.1 (by simp [child_at_index_0])

theorem size_pos (v : Value) : 1 ≤ size v := by
  cases v <;> simp [size] <;> omega

theorem leaf_size {v : Value} (h : is_branch_node v = false) : size v = 1 := by
  cases v <;> simp [is_branch_node] at h <;> simp [size]

theorem sizeList_append (l₁ l₂ : List Value) :
    sizeList (l₁ ++ l₂) = sizeList l₁ + sizeList l₂ := by
  induction l₁ with
  | nil => simp [sizeList]
  | cons x xs ih => simp [sizeList, ih]; omega

theorem sizeList_of_leaves {l : List Value} (h : ∀ x ∈ l, is_branch_node x = false) :
    sizeList l = l.length := by
  induction l with
  | nil => simp [sizeList]
  | cons x xs ih =>
    simp [sizeList]
    rw [leaf_size (h x (by simp)), ih (fun y hy => h y (by simp [hy]))]
    omega

theorem write_size {v c : Value} (h : child_at_index_0 v = some c) (x : Value) :
    size (write_child_at_index_0 v x) + size c = size v + size x := by
  cases v with
  | Cons car cdr =>
    simp [child_at_index_0] at h
    subst h
    simp [write_child_at_index_0, size]
    omega
  | Vector elems =>
    cases elems with
    | nil => simp [child_at_index_0] at h
    | cons y ys =>
      simp [child_at_index_0] at h
      subst h
      simp [write_child_at_index_0, size, sizeList]
      omega
  | Nil => simp [child_at_index_0] at h
  | Null => simp [child_at_index_0] at h
  | Bool b => simp [child_at_index_0] at h
  | Number n => simp [child_at_index_0] at h
  | Char cc => simp [child_at_index_0] at h
  | String s => simp [child_at_index_0] at h
  | Symbol s => simp [child_at_index_0] at h
  | Keyword s => simp [child_at_index_0] at h
  | Bytes bs => simp [child_at_index_0] at h

theorem branch_of_slot_0 {v c : Value} (h : child_at_index_0 v = some c) :
    is_branch_node v = true := by
  cases v <;> simp [child_at_index_0] at h <;> simp [is_branch_node]

theorem write_keeps_branch {v c : Value} (h : child_at_index_0 v = some c) (x : Value) :
    is_branch_node (write_child_at_index_0 v x) = true := by
  cases v with
  | Cons car cdr => simp [write_child_at_index_0, is_branch_node]
  | Vector elems =>
    cases elems with
    | nil => simp [child_at_index_0] at h
    | cons y ys => simp [write_child_at_index_0, is_branch_node]
  | Nil => simp [child_at_index_0] at h
  | Null => simp [child_at_index_0] at h
  | Bool b => simp [child_at_index_0] at h
  | Number n => simp [child_at_index_0] at h
  | Char cc => simp [child_at_index_0] at h
  | String s => simp [child_at_index_0] at h
  | Symbol s => simp [child_at_index_0] at h
  | Keyword s => simp [child_at_index_0] at h
  | Bytes bs => simp [child_at_index_0] at h

theorem set_parent_no_eq {v : Value} (a : Value) (h : child_at_index_0 v = none) :
    set_parent_at_index_0 v a = (.No a, v) := by
  unfold set_parent_at_index_0
  rw [h]

theorem set_parent_yes_eq {v c : Value} (a : Value) (hc : child_at_index_0 v = some c)
    (hb : is_branch_node c = false) :
    set_parent_at_index_0 v a = (.Yes, write_child_at_index_0 v a) := by
  unfold set_parent_at_index_0 replace_branch_node
  rw [hc]
  simp [hb]

theorem set_parent_replaced_eq {v c : Value} (a : Value) (hc : child_at_index_0 v = some c)
    (hb : is_branch_node c = true) :
    set_parent_at_index_0 v a = (.YesReplacedChild c, write_child_at_index_0 v a) := by
  unfold set_parent_at_index_0 replace_branch_node
  rw [hc]
  simp [hb]

theorem take_child0_none_eq {v : Value} (h : child_at_index_0 v = none) :
    take_child_at_index_0 v = (none, v) := by
  unfold take_child_at_index_0
  rw [h]

theorem take_child0_some_eq {v c : Value} (hc : child_at_index_0 v = some c) :
    take_child_at_index_0 v =
      ((if is_branch_node c then some c else none), write_child_at_index_0 v Value.Nil) := by
  unfold take_child_at_index_0 take_branch_node replace_branch_node
  rw [hc]

/-- Modelled from the spec: the state space of the generic destruction driver
(spec §4.3), which in the source is supplied by the external `deep_safe_drop`
crate and is not part of this repository.  The driver keeps a single cursor;
ancestor links are threaded through the tree's own slot-0 positions.
`descend child parent` is the phase that stores `parent` into the detached
`child`'s slot 0 (displaced slot-0 branch children are threaded the same way
and visited before the ancestor link is followed back up); `next cursor` is
the main phase that takes the cursor's remaining children beyond slot 0 and,
when none remain, finalizes the cursor and ascends through its slot 0. -/
inductive DriveState : Type where
  | start (root : Value) : DriveState
  | descend (child parent : Value) : DriveState
  | next (cursor : Value) : DriveState
  | done : DriveState

/-- Machine state: driver phase plus ghost counters — `finalized` counts the
nodes finalized so far (each discarded leaf, and every node of a finalized
shell), `created` counts the `Nil` placeholder nodes manufactured by the
child-slot operations. -/
structure Machine : Type where
  st : DriveState
  finalized : Nat
  created : Nat

/-- Ghost count of placeholders created by one `take_child_at_index_0` call. -/
def placeholdersOfTake (v : Value) : Nat :=
  match child_at_index_0 v with
  | some _ => 1
  | none => 0

/-- Ghost count of leaves discarded by one `take_child_at_index_0` call. -/
def leafDropOfTake (v : Value) : Nat :=
  match child_at_index_0 v with
  | some c => if is_branch_node c then 0 else 1
  | none => 0

/-- Ghost count of placeholders created by one `take_next_child_at_pos_index`
call (the Cons arm always vacates the cdr slot into a `Nil`). -/
def placeholdersOfNext (v : Value) : Nat :=
  match v with
  | .Cons _ _ => 1
  | _ => 0

/-- Ghost count of leaves discarded by one `take_next_child_at_pos_index`
call (a leaf cdr, or the leaves popped off the end of a vector). -/
def leafDropOfNext (v : Value) : Nat :=
  match v with
  | .Cons _ cdr => if is_branch_node cdr then 0 else 1
  | .Vector l =>
    l.length - (vec_take_next l).2.length - (if (vec_take_next l).1.isSome then 1 else 0)
  | _ => 0

/-- Modelled from the spec: one step of the destruction driver of the
external `deep_safe_drop` crate (spec §4.3), over the child-slot operations
of `drop.rs`.  From `start`, a leaf root is finalized outright and a branch
root has its leading child taken (its slot 0 is vacated, marking the bottom
of the ancestor chain).  `descend child parent` stores `parent` into
`child`'s slot 0: a displaced branch child is descended into next (threading
`child` as its ancestor), the `No` outcome (childless branch, the empty
vector) finalizes `child` immediately and resumes `parent`.  `next cursor`
takes the cursor's next child beyond slot 0 and descends into it; when none
remains the cursor is exhausted: the ancestor is recovered out of its slot 0,
the remaining shell (all leaves) is finalized, and the walk resumes at the
ancestor — or ends when slot 0 held no ancestor (the root). -/
def step (m : Machine) : Machine :=
  match m.st with
  | .done => m
  | .start root =>
    if is_branch_node root then
      match take_child_at_index_0 root with
      | (some c0, root') =>
        ⟨.descend c0 root', m.finalized + leafDropOfTake root,
          m.created + placeholdersOfTake root⟩
      | (none, root') =>
        ⟨.next root', m.finalized + leafDropOfTake root,
          m.created + placeholdersOfTake root⟩
    else
      ⟨.done, m.finalized + size root, m.created⟩
  | .descend child parent =>
    match set_parent_at_index_0 child parent with
    | (.Yes, child') => ⟨.next child', m.finalized + 1, m.created⟩
    | (.YesReplacedChild d, child') => ⟨.descend d child', m.finalized, m.created⟩
    | (.No p, child') => ⟨.next p, m.finalized + size child', m.created⟩
  | .next cursor =>
    match take_next_child_at_pos_index cursor with
    | (some child, cursor') =>
      ⟨.descend child cursor', m.finalized + leafDropOfNext cursor,
        m.created + placeholdersOfNext cursor⟩
    | (none, cursor') =>
      match take_child_at_index_0 cursor' with
      | (some p, shell) =>
        ⟨.next p,
          m.finalized + leafDropOfNext cursor + leafDropOfTake cursor' + size shell,
          m.created + placeholdersOfNext cursor + placeholdersOfTake cursor'⟩
      | (none, shell) =>
        ⟨.done,
          m.finalized + leafDropOfNext cursor + leafDropOfTake cursor' + size shell,
          m.created + placeholdersOfNext cursor + placeholdersOfTake cursor'⟩

/-- Iterate the driver for a given amount of fuel. -/
def run : Nat → Machine → Machine
  | 0, m => m
  | k + 1, m => run k (step m)

/-- Total size of the values alive (owned) in a driver state. -/
def liveSize : DriveState → Nat
  | .start root => size root
  | .descend child parent => size child + size parent
  | .next cursor => size cursor
  | .done => 0

theorem run_add (a b : Nat) (m : Machine) : run (a + b) m = run b (run a m) := by
  induction a generalizing m with
  | zero => simp [run]
  | succ a ih =>
    have hh : a + 1 + b = (a + b) + 1 := by omega
    rw [hh]
    show run (a + b) (step m) = run b (run a (step m))
    exact ih (step m)

/-- Size of an optional detached value. -/
def optSize : Option Value → Nat
  | some v => size v
  | none => 0

theorem size_nil_eq : size Value.Nil = 1 := by simp [size]

theorem take_child0_accounting (v : Value) :
    optSize (take_child_at_index_0 v).1 + size (take_child_at_index_0 v).2 +
      leafDropOfTake v = size v + placeholdersOfTake v := by
  cases hc : child_at_index_0 v with
  | none =>
    rw [take_child0_none_eq hc]
    simp [optSize, leafDropOfTake, placeholdersOfTake, hc]
  | some c =>
    rw [take_child0_some_eq hc]
    have hw := write_size hc Value.Nil
    rw [size_nil_eq] at hw
    cases hb : is_branch_node c with
    | true =>
      simp [optSize, leafDropOfTake, placeholdersOfTake, hc, hb]
      omega
    | false =>
      have hc1 : size c = 1 := leaf_size hb
      simp [optSize, leafDropOfTake, placeholdersOfTake, hc, hb]
      omega

theorem take_next_accounting (v : Value) :
    optSize (take_next_child_at_pos_index v).1 + size (take_next_child_at_pos_index v).2 +
      leafDropOfNext v = size v + placeholdersOfNext v := by
  cases v with
  | Cons car cdr =>
    cases hb : is_branch_node cdr with
    | true =>
      simp [take_next_child_at_pos_index, take_branch_node, replace_branch_node, hb,
        optSize, leafDropOfNext, placeholdersOfNext, size]
      omega
    | false =>
      have hc1 : size cdr = 1 := leaf_size hb
      simp [take_next_child_at_pos_index, take_branch_node, replace_branch_node, hb,
        optSize, leafDropOfNext, placeholdersOfNext, size]
      omega
  | Vector l =>
    cases hr : vec_take_next l with
    | mk r l' =>
      cases r with
      | some b =>
        obtain ⟨hbb, hlen, trail, htr, hleaf⟩ := vec_take_next_some l b l' hr
        have hlength : l.length = l'.length + 1 + trail.length := by
          rw [htr]; simp; omega
        have hsizes : sizeList l = sizeList l' + size b + sizeList trail := by
          rw [htr, sizeList_append]
          simp [sizeList]
          omega
        have htrail : sizeList trail = trail.length := sizeList_of_leaves hleaf
        simp [take_next_child_at_pos_index, hr, optSize, leafDropOfNext,
          placeholdersOfNext, size]
        omega
      | none =>
        obtain ⟨h1, h2⟩ := vec_take_next_none l l' hr
        have hsplit : l = l.take 1 ++ l.drop 1 := (List.take_append_drop 1 l).symm
        have hsizes : sizeList l = sizeList (l.take 1) + sizeList (l.drop 1) := by
          conv_lhs => rw [hsplit]
          exact sizeList_append _ _
        have hdrop : sizeList (l.drop 1) = (l.drop 1).length := sizeList_of_leaves h2
        have hdlen : (l.drop 1).length = l.length - 1 := by simp
        have htlen : (l.take 1).length = min 1 l.length := by simp
        subst h1
        simp [take_next_child_at_pos_index, hr, optSize, leafDropOfNext,
          placeholdersOfNext, size]
        omega
  | Nil => simp [take_next_child_at_pos_index, optSize, leafDropOfNext, placeholdersOfNext]
  | Null => simp [take_next_child_at_pos_index, optSize, leafDropOfNext, placeholdersOfNext]
  | Bool b => simp [take_next_child_at_pos_index, optSize, leafDropOfNext, placeholdersOfNext]
  | Number n => simp [take_next_child_at_pos_index, optSize, leafDropOfNext, placeholdersOfNext]
  | Char c => simp [take_next_child_at_pos_index, optSize, leafDropOfNext, placeholdersOfNext]
  | String s => simp [take_next_child_at_pos_index, optSize, leafDropOfNext, placeholdersOfNext]
  | Symbol s => simp [take_next_child_at_pos_index, optSize, leafDropOfNext, placeholdersOfNext]
  | Keyword s => simp [take_next_child_at_pos_index, optSize, leafDropOfNext, placeholdersOfNext]
  | Bytes bs => simp [take_next_child_at_pos_index, optSize, leafDropOfNext, placeholdersOfNext]

theorem step_conserves (m : Machine) :
    liveSize (step m).st + (step m).finalized + m.created =
      liveSize m.st + m.finalized + (step m).created := by
  rcases m with ⟨st, f, cr⟩
  cases st with
  | done => rfl
  | start root =>
    cases hbr : is_branch_node root with
    | false =>
      simp [step, hbr, liveSize]
      omega
    | true =>
      cases ht : take_child_at_index_0 root with
      | mk r root' =>
        have hacc := take_child0_accounting root
        rw [ht] at hacc
        cases r with
        | some c0 =>
          simp [optSize] at hacc
          simp [step, hbr, ht, liveSize]
          omega
        | none =>
          simp [optSize] at hacc
          simp [step, hbr, ht, liveSize]
          omega
  | descend child parent =>
    cases hc : child_at_index_0 child with
    | none =>
      simp [step, set_parent_no_eq parent hc, liveSize]
      omega
    | some c0 =>
      have hw := write_size hc parent
      cases hb : is_branch_node c0 with
      | false =>
        have hc1 : size c0 = 1 := leaf_size hb
        simp [step, set_parent_yes_eq parent hc hb, liveSize]
        omega
      | true =>
        simp [step, set_parent_replaced_eq parent hc hb, liveSize]
        omega
  | next cursor =>
    cases ht : take_next_child_at_pos_index cursor with
    | mk r cursor' =>
      have hacc := take_next_accounting cursor
      rw [ht] at hacc
      cases r with
      | some child =>
        simp [optSize] at hacc
        simp [step, ht, liveSize]
        omega
      | none =>
        simp [optSize] at hacc
        cases ht2 : take_child_at_index_0 cursor' with
        | mk r2 shell =>
          have hacc2 := take_child0_accounting cursor'
          rw [ht2] at hacc2
          cases r2 with
          | some p =>
            simp [optSize] at hacc2
            simp [step, ht, ht2, liveSize]
            omega
          | none =>
            simp [optSize] at hacc2
            simp [step, ht, ht2, liveSize]
            omega

theorem run_conserves (k : Nat) (m : Machine) :
    liveSize (run k m).st + (run k m).finalized + m.created =
      liveSize m.st + m.finalized + (run k m).created := by
  induction k generalizing m with
  | zero => simp [run]
  | succ k ih =>
    have h1 := step_conserves m
    have h2 := ih (step m)
    simp only [run]
    omega

/-- Where the driver goes when the current cursor is exhausted: its slot 0
holds either the threaded ancestor (a branch — resume there) or a leaf /
nothing (the cursor was the subtree top — the walk ends). -/
def ascendTarget (c : Value) : DriveState :=
  match child_at_index_0 c with
  | some a => if is_branch_node a then .next a else .done
  | none => .done

/-- Size of a value excluding its slot-0 subtree (termination measure: the
slot-0 position carries the ancestor chain, which must not count). -/
def restSize : Value → Nat
  | .Cons _ cdr => 1 + size cdr
  | .Vector [] => 1
  | .Vector (_ :: rest) => 1 + sizeList rest
  | .Nil | .Null | .Bool _ | .Number _ | .Char _ | .String _ | .Symbol _
  | .Keyword _ | .Bytes _ => 1

/-- Measure tiebreaker: a Cons whose cdr is still an untaken branch owes one
extra `take_next` step that does not shrink `restSize`. -/
def consPending : Value → Nat
  | .Cons _ cdr => if is_branch_node cdr then 1 else 0
  | .Vector _ => 0
  | .Nil | .Null | .Bool _ | .Number _ | .Char _ | .String _ | .Symbol _
  | .Keyword _ | .Bytes _ => 0

theorem restSize_pos (v : Value) : 1 ≤ restSize v := by
  cases v with
  | Vector elems => cases elems <;> simp [restSize]
  | Cons car cdr => simp [restSize]
  | Nil => simp [restSize]
  | Null => simp [restSize]
  | Bool b => simp [restSize]
  | Number n => simp [restSize]
  | Char c => simp [restSize]
  | String s => simp [restSize]
  | Symbol s => simp [restSize]
  | Keyword s => simp [restSize]
  | Bytes bs => simp [restSize]

theorem consPending_le_one (v : Value) : consPending v ≤ 1 := by
  cases v with
  | Cons car cdr => simp [consPending]; split <;> simp
  | Vector elems => simp [consPending]
  | Nil => simp [consPending]
  | Null => simp [consPending]
  | Bool b => simp [consPending]
  | Number n => simp [consPending]
  | Char c => simp [consPending]
  | String s => simp [consPending]
  | Symbol s => simp [consPending]
  | Keyword s => simp [consPending]
  | Bytes bs => simp [consPending]

theorem restSize_slot {v c : Value} (h : child_at_index_0 v = some c) :
    restSize v + size c = size v := by
  cases v with
  | Cons car cdr =>
    simp [child_at_index_0] at h
    subst h
    simp [restSize, size]
    omega
  | Vector elems =>
    cases elems with
    | nil => simp [child_at_index_0] at h
    | cons y ys =>
      simp [child_at_index_0] at h
      subst h
      simp [restSize, size, sizeList]
      omega
  | Nil => simp [child_at_index_0] at h
  | Null => simp [child_at_index_0] at h
  | Bool b => simp [child_at_index_0] at h
  | Number n => simp [child_at_index_0] at h
  | Char cc => simp [child_at_index_0] at h
  | String s => simp [child_at_index_0] at h
  | Symbol s => simp [child_at_index_0] at h
  | Keyword s => simp [child_at_index_0] at h
  | Bytes bs => simp [child_at_index_0] at h

theorem restSize_write (v x : Value) :
    restSize (write_child_at_index_0 v x) = restSize v := by
  cases v with
  | Cons car cdr => simp [write_child_at_index_0, restSize]
  | Vector elems => cases elems <;> simp [write_child_at_index_0, restSize]
  | Nil => simp [write_child_at_index_0]
  | Null => simp [write_child_at_index_0]
  | Bool b => simp [write_child_at_index_0]
  | Number n => simp [write_child_at_index_0]
  | Char c => simp [write_child_at_index_0]
  | String s => simp [write_child_at_index_0]
  | Symbol s => simp [write_child_at_index_0]
  | Keyword s => simp [write_child_at_index_0]
  | Bytes bs => simp [write_child_at_index_0]

theorem consPending_write (v x : Value) :
    consPending (write_child_at_index_0 v x) = consPending v := by
  cases v with
  | Cons car cdr => simp [write_child_at_index_0, consPending]
  | Vector elems => cases elems <;> simp [write_child_at_index_0, consPending]
  | Nil => simp [write_child_at_index_0]
  | Null => simp [write_child_at_index_0]
  | Bool b => simp [write_child_at_index_0]
  | Number n => simp [write_child_at_index_0]
  | Char c => simp [write_child_at_index_0]
  | String s => simp [write_child_at_index_0]
  | Symbol s => simp [write_child_at_index_0]
  | Keyword s => simp [write_child_at_index_0]
  | Bytes bs => simp [write_child_at_index_0]

theorem take_next_keeps_slot_0 (v : Value) :
    child_at_index_0 (take_next_child_at_pos_index v).2 = child_at_index_0 v := by
  cases v with
  | Cons car cdr =>
    cases hb : is_branch_node cdr <;>
      simp [take_next_child_at_pos_index, take_branch_node, replace_branch_node, hb,
        child_at_index_0]
  | Vector elems =>
    cases hr : vec_take_next elems with
    | mk r rest =>
      have hh := vec_take_next_head_eq elems
      rw [hr] at hh
      simp [take_next_child_at_pos_index, hr, child_at_index_0, hh]
  | Nil => simp [take_next_child_at_pos_index]
  | Null => simp [take_next_child_at_pos_index]
  | Bool b => simp [take_next_child_at_pos_index]
  | Number n => simp [take_next_child_at_pos_index]
  | Char c => simp [take_next_child_at_pos_index]
  | String s => simp [take_next_child_at_pos_index]
  | Symbol s => simp [take_next_child_at_pos_index]
  | Keyword s => simp [take_next_child_at_pos_index]
  | Bytes bs => simp [take_next_child_at_pos_index]

theorem run_one (m : Machine) : run 1 m = step m := rfl

theorem run_one_to (m : Machine) (t : DriveState) (h : (step m).st = t) :
    ∃ k fz crz, run k m = ⟨t, fz, crz⟩ := by
  refine ⟨1, (step m).finalized, (step m).created, ?_⟩
  have hr : run 1 m = step m := rfl
  rw [hr, ← h]

/-- The two traversal spans of the driver, proved together by strong
induction on a combined measure: from `next c` the machine reaches the
cursor's ascend target, and from `descend child parent` (with a branch
parent) the machine reaches `next parent` after fully destroying `child`'s
subtree. -/
theorem driver_span (n : Nat) :
    (∀ c f cr, 2 * restSize c + consPending c ≤ n →
      ∃ k fz crz, run k ⟨.next c, f, cr⟩ = ⟨ascendTarget c, fz, crz⟩) ∧
    (∀ child parent f cr, is_branch_node parent = true → 2 * size child ≤ n →
      ∃ k fz crz, run k ⟨.descend child parent, f, cr⟩ = ⟨.next parent, fz, crz⟩) := by
  induction n using Nat.strong_induction_on with
  | _ n ih =>
    constructor
    · intro c f cr hn
      cases ht : take_next_child_at_pos_index c with
      | mk r c' =>
        cases r with
        | none =>
          apply run_one_to
          have hslot : child_at_index_0 c' = child_at_index_0 c := by
            have hks := take_next_keeps_slot_0 c
            rw [ht] at hks
            exact hks
          cases hc : child_at_index_0 c' with
          | none =>
            have hcc : child_at_index_0 c = none := by rw [← hslot]; exact hc
            simp [step, ht, take_child0_none_eq hc, ascendTarget, hcc]
          | some a =>
            have hcc : child_at_index_0 c = some a := by rw [← hslot]; exact hc
            cases hb : is_branch_node a with
            | true =>
              simp [step, ht, take_child0_some_eq hc, hb, ascendTarget, hcc]
            | false =>
              simp [step, ht, take_child0_some_eq hc, hb, ascendTarget, hcc]
        | some child =>
          cases c with
          | Cons car cdr =>
            cases hb : is_branch_node cdr with
            | false =>
              exfalso
              simp [take_next_child_at_pos_index, take_branch_node,
                replace_branch_node, hb] at ht
            | true =>
              have hteq : take_next_child_at_pos_index (Value.Cons car cdr) =
                  (some cdr, Value.Cons car Value.Nil) := by
                simp [take_next_child_at_pos_index, take_branch_node,
                  replace_branch_node, hb]
              rw [hteq] at ht
              injection ht with e1 e2
              injection e1 with e1
              subst e1
              subst e2
              have hsz : 1 ≤ size cdr := size_pos cdr
              have hn5 : 2 * (1 + size cdr) + 1 ≤ n := by
                have hr1 : restSize (Value.Cons car cdr) = 1 + size cdr := by
                  simp [restSize]
                have hp1 : consPending (Value.Cons car cdr) = 1 := by
                  simp [consPending, hb]
                omega
              obtain ⟨k1, f1, cr1, hk1⟩ :=
                (ih (2 * size cdr) (by omega)).2 cdr (Value.Cons car Value.Nil)
                  (f + leafDropOfNext (Value.Cons car cdr))
                  (cr + placeholdersOfNext (Value.Cons car cdr))
                  (by simp [is_branch_node]) (by omega)
              have hmu : 2 * restSize (Value.Cons car Value.Nil) +
                  consPending (Value.Cons car Value.Nil) ≤ 4 := by
                simp [restSize, consPending, is_branch_node, size_nil_eq]
              obtain ⟨k2, f2, cr2, hk2⟩ :=
                (ih 4 (by omega)).1 (Value.Cons car Value.Nil) f1 cr1 hmu
              have htg : ascendTarget (Value.Cons car Value.Nil) =
                  ascendTarget (Value.Cons car cdr) := by
                simp [ascendTarget, child_at_index_0]
              have h0 : run 1 ⟨.next (Value.Cons car cdr), f, cr⟩ =
                  ⟨.descend cdr (Value.Cons car Value.Nil),
                    f + leafDropOfNext (Value.Cons car cdr),
                    cr + placeholdersOfNext (Value.Cons car cdr)⟩ := by
                rw [run_one]
                simp [step, hteq]
              refine ⟨1 + (k1 + k2), f2, cr2, ?_⟩
              rw [run_add, h0, run_add, hk1, hk2, htg]
          | Vector l =>
            cases hvt : vec_take_next l with
            | mk r0 l0 =>
              have hteq : take_next_child_at_pos_index (Value.Vector l) =
                  (r0, Value.Vector l0) := by
                simp [take_next_child_at_pos_index, hvt]
              rw [hteq] at ht
              injection ht with e1 e2
              subst e1
              subst e2
              obtain ⟨hbb, hlen, trail, htr, hleaf⟩ := vec_take_next_some l child l0 hvt
              cases l0 with
              | nil => simp at hlen
              | cons x ltl =>
                have hl : l = x :: (ltl ++ child :: trail) := by simpa using htr
                have hszc : 1 ≤ size child := size_pos child
                have hrs : restSize (Value.Vector l) =
                    1 + sizeList ltl + size child + sizeList trail := by
                  rw [hl]
                  simp [restSize, sizeList_append, sizeList]
                  omega
                have hn2 : 2 * restSize (Value.Vector l) ≤ n := by
                  have hp0 : consPending (Value.Vector l) = 0 := by simp [consPending]
                  omega
                obtain ⟨k1, f1, cr1, hk1⟩ :=
                  (ih (2 * size child) (by omega)).2 child (Value.Vector (x :: ltl))
                    (f + leafDropOfNext (Value.Vector l))
                    (cr + placeholdersOfNext (Value.Vector l))
                    (by simp [is_branch_node]) (by omega)
                obtain ⟨k2, f2, cr2, hk2⟩ :=
                  (ih (2 * (1 + sizeList ltl)) (by omega)).1 (Value.Vector (x :: ltl))
                    f1 cr1 (by simp [restSize, consPending])
                have htg : ascendTarget (Value.Vector (x :: ltl)) =
                    ascendTarget (Value.Vector l) := by
                  rw [hl]
                  simp [ascendTarget, child_at_index_0]
                have h0 : run 1 ⟨.next (Value.Vector l), f, cr⟩ =
                    ⟨.descend child (Value.Vector (x :: ltl)),
                      f + leafDropOfNext (Value.Vector l),
                      cr + placeholdersOfNext (Value.Vector l)⟩ := by
                  rw [run_one]
                  simp [step, hteq]
                refine ⟨1 + (k1 + k2), f2, cr2, ?_⟩
                rw [run_add, h0, run_add, hk1, hk2, htg]
          | Nil => simp [take_next_child_at_pos_index] at ht
          | Null => simp [take_next_child_at_pos_index] at ht
          | Bool b => simp [take_next_child_at_pos_index] at ht
          | Number nn => simp [take_next_child_at_pos_index] at ht
          | Char cc => simp [take_next_child_at_pos_index] at ht
          | String s => simp [take_next_child_at_pos_index] at ht
          | Symbol s => simp [take_next_child_at_pos_index] at ht
          | Keyword s => simp [take_next_child_at_pos_index] at ht
          | Bytes bs => simp [take_next_child_at_pos_index] at ht
    · intro child parent f cr hbp hn
      cases hc : child_at_index_0 child with
      | none =>
        apply run_one_to
        simp [step, set_parent_no_eq parent hc]
      | some c0 =>
        have hw : child_at_index_0 (write_child_at_index_0 child parent) = some parent :=
          write_child_keeps_slot_0 hc parent
        have hrw := restSize_write child parent
        have hslot := restSize_slot hc
        have hpw := consPending_write child parent
        have hple := consPending_le_one child
        have hrp := restSize_pos child
        have hsc0 := size_pos c0
        have htg : ascendTarget (write_child_at_index_0 child parent) = .next parent := by
          simp [ascendTarget, hw, hbp]
        cases hb : is_branch_node c0 with
        | false =>
          have hsp := set_parent_yes_eq parent hc hb
          have hc01 : size c0 = 1 := leaf_size hb
          obtain ⟨k1, f1, cr1, hk1⟩ :=
            (ih (2 * restSize child + 1) (by omega)).1
              (write_child_at_index_0 child parent) (f + 1) cr (by rw [hrw, hpw]; omega)
          have h0 : run 1 ⟨.descend child parent, f, cr⟩ =
              ⟨.next (write_child_at_index_0 child parent), f + 1, cr⟩ := by
            rw [run_one]
            simp [step, hsp]
          refine ⟨1 + k1, f1, cr1, ?_⟩
          rw [run_add, h0, hk1, htg]
        | true =>
          have hsp := set_parent_replaced_eq parent hc hb
          have hwb : is_branch_node (write_child_at_index_0 child parent) = true :=
            write_keeps_branch hc parent
          obtain ⟨k1, f1, cr1, hk1⟩ :=
            (ih (2 * size c0) (by omega)).2 c0
              (write_child_at_index_0 child parent) f cr hwb (by omega)
          obtain ⟨k2, f2, cr2, hk2⟩ :=
            (ih (2 * restSize child + 1) (by omega)).1
              (write_child_at_index_0 child parent) f1 cr1 (by rw [hrw, hpw]; omega)
          have h0 : run 1 ⟨.descend child parent, f, cr⟩ =
              ⟨.descend c0 (write_child_at_index_0 child parent), f, cr⟩ := by
            rw [run_one]
            simp [step, hsp]
          refine ⟨1 + (k1 + k2), f2, cr2, ?_⟩
          rw [run_add, h0, run_add, hk1, hk2, htg]

theorem take_child0_keeps_branch (v : Value) :
    is_branch_node (take_child_at_index_0 v).2 = is_branch_node v := by
  cases hc : child_at_index_0 v with
  | none => rw [take_child0_none_eq hc]
  | some c =>
    rw [take_child0_some_eq hc]
    simp [write_keeps_branch hc, branch_of_slot_0 hc]

theorem take_child0_vacates_ascend (v : Value) :
    ascendTarget (take_child_at_index_0 v).2 = .done := by
  cases hc : child_at_index_0 v with
  | none =>
    rw [take_child0_none_eq hc]
    simp [ascendTarget, hc]
  | some c =>
    rw [take_child0_some_eq hc]
    have hw := write_child_keeps_slot_0 hc Value.Nil
    simp [ascendTarget, hw, is_branch_node]

/-- Claim C1 (driver modelled from the spec, see `step`): for every finite
tree of values, iterating the destruction driver from the root terminates in
the `done` state, with the finalize counter equal to the number of nodes of
the tree plus the number of `Nil` placeholder nodes the walk created.
Together with the per-step conservation law (`step_conserves`) this states
that every node — original or placeholder — is finalized exactly once, with
none lost and none double-finalized.  The O(1) auxiliary-memory claim is
reflected structurally: the walk is a first-order iteration (`run`) of the
non-recursive `step` function over a constant-size machine state, so no
call-stack depth proportional to the tree is ever used. -/
theorem C1_driver_destroys_every_node_exactly_once (t : Value) :
    ∃ k, (run k ⟨.start t, 0, 0⟩).st = .done ∧
      (run k ⟨.start t, 0, 0⟩).finalized =
        size t + (run k ⟨.start t, 0, 0⟩).created := by
  have hterm : ∃ k, (run k (⟨.start t, 0, 0⟩ : Machine)).st = .done := by
    cases hbr : is_branch_node t with
    | false =>
      refine ⟨1, ?_⟩
      rw [run_one]
      simp [step, hbr]
    | true =>
      cases ht : take_child_at_index_0 t with
      | mk r t' =>
        have hbr' : is_branch_node t' = true := by
          have hkb := take_child0_keeps_branch t
          rw [ht] at hkb
          exact hkb.trans hbr
        have hat : ascendTarget t' = .done := by
          have hh := take_child0_vacates_ascend t
          rw [ht] at hh
          exact hh
        cases r with
        | some c0 =>
          obtain ⟨k1, f1, cr1, hk1⟩ := (driver_span (2 * size c0)).2 c0 t'
            (0 + leafDropOfTake t) (0 + placeholdersOfTake t) hbr' (le_refl _)
          obtain ⟨k2, f2, cr2, hk2⟩ :=
            (driver_span (2 * restSize t' + consPending t')).1 t' f1 cr1 (le_refl _)
          refine ⟨1 + (k1 + k2), ?_⟩
          rw [run_add, run_one]
          have h0 : step ⟨.start t, 0, 0⟩ =
              ⟨.descend c0 t', 0 + leafDropOfTake t, 0 + placeholdersOfTake t⟩ := by
            simp [step, hbr, ht]
          rw [h0, run_add, hk1, hk2, hat]
        | none =>
          obtain ⟨k1, f1, cr1, hk1⟩ :=
            (driver_span (2 * restSize t' + consPending t')).1 t'
              (0 + leafDropOfTake t) (0 + placeholdersOfTake t) (le_refl _)
          refine ⟨1 + k1, ?_⟩
          rw [run_add, run_one]
          have h0 : step ⟨.start t, 0, 0⟩ =
              ⟨.next t', 0 + leafDropOfTake t, 0 + placeholdersOfTake t⟩ := by
            simp [step, hbr, ht]
          rw [h0, hk1, hat]
  obtain ⟨k, hk⟩ := hterm
  refine ⟨k, hk, ?_⟩
  have hc := run_conserves k ⟨.start t, 0, 0⟩
  rw [hk] at hc
  simp [liveSize] at hc
  omega

end LexprDrop
